import Mathlib

/-!
Verification development for the localization-strings synchronizer
(`strings.py`): a shallow embedding of its record model, line grammar,
file-level parsers, tree extractor, merge engine, categorizing writer and
incremental updater, together with theorems settling the specification's
claims about them.

Modelling conventions:
* Python `str` is modelled by `String`; optional values (`None`) by `Option`.
* Python dictionaries keyed by strings are modelled by association lists
  (`Dict` below); `dict.get` is `dictGet`, assignment is `dictInsert`.
* Python truthiness of an optional string (`if s:`) is `truthy`.
* File contents are modelled as the list of their lines (each line implicitly
  terminated by a newline in the on-disk form, so the updater's `line[:-1]`
  is the identity on the modelled line).
* The two regular expressions of `LocalizedString` are embedded as explicit
  backtracking matchers that enumerate candidate matches of each greedy
  group from longest to shortest, exactly in Python `re` preference order.
-/

/-- A character matched by `.` in a Python regex (anything but a newline). -/
def dotOk (c : Char) : Bool := c != '\n'

/-- A character matched by `\w` in a Python regex (letters, digits, underscore;
the embedding uses the ASCII reading, which covers all inputs in this
development). -/
def isWordChar (c : Char) : Bool := c.isAlphanum || c = '_'

/-- A character stripped by Python `str.strip()`. -/
def isPySpace (c : Char) : Bool :=
  c = ' ' || c = '\t' || c = '\n' || c = '\r' || c = '\x0b' || c = '\x0c'

/-- Python `str.strip()`: remove leading and trailing whitespace. -/
def pyStrip (s : String) : String :=
  ⟨((s.data.dropWhile isPySpace).reverse.dropWhile isPySpace).reverse⟩

/-- Python truthiness of an optional string: `None` and `""` are falsy. -/
def truthy : Option String → Bool
  | none => false
  | some s => s != ""

/-- A `LocalizedString` record: one key/value/comment localization entry. -/
structure LocalizedString where
  key : String
  value : Option String
  comment : Option String
deriving DecidableEq, Repr

/-- Python `$` (without MULTILINE) also matches just before a single trailing
newline; since no other piece of either pattern can consume a newline, this is
equivalent to removing one trailing newline up front. -/
def stripTrailingNewline (cs : List Char) : List Char :=
  if cs.getLast? = some '\n' then cs.dropLast else cs

/-- All ways a greedy `(.+)` group can split its input, as (consumed, rest)
pairs: every nonempty newline-free prefix, in Python's preference order
(longest first). -/
def prefixCandidates : List Char → List (List Char × List Char)
  | [] => []
  | c :: cs =>
    if dotOk c then
      (prefixCandidates cs).map (fun p => (c :: p.1, p.2)) ++ [([c], cs)]
    else []

/-- Zero or one way to consume the literal character sequence `pat` from the
front of the input. -/
def dropPat (pat cs : List Char) : List (List Char) :=
  if pat.isPrefixOf cs then [cs.drop pat.length] else []

/-- All ways ` ?= ?` can match a prefix of the input, as the list of
remainders in Python's preference order (each `?` greedily prefers to
consume its space). -/
def matchEqCandidates (cs : List Char) : List (List Char) :=
  dropPat [' ', '=', ' '] cs ++ dropPat [' ', '='] cs ++
    dropPat ['=', ' '] cs ++ dropPat ['='] cs

/-- Match `(?: /\* (.+) \*/)?$` against the whole remaining input: either the
input is empty (group skipped), or it is ` /* ` ++ comment ++ ` */` with the
comment nonempty and newline-free.  Because the group is anchored at the end
and ` \*/` consumes exactly three characters, the greedy `(.+)` can only
take everything up to the final ` */`. -/
def matchTail (cs : List Char) : Option (Option (List Char)) :=
  match cs with
  | [] => some none
  | ' ' :: '/' :: '*' :: ' ' :: rest =>
    if 4 ≤ rest.length ∧ rest.drop (rest.length - 3) = [' ', '*', '/']
        ∧ (rest.take (rest.length - 3)).all dotOk then
      some (some (rest.take (rest.length - 3)))
    else none
  | _ => none

/-- Continuation after the value group's split `vp`: the pattern still has to
match `";` and then the optional comment clause up to the end. -/
def valueCont (k : List Char) (vp : List Char × List Char) :
    Option (List Char × List Char × Option (List Char)) :=
  match vp with
  | (v, c1 :: c2 :: r6) =>
    if c1 = '"' ∧ c2 = ';' then (matchTail r6).map fun c => (k, v, c) else none
  | (_, _) => none

/-- Continuation after ` ?= ?` with remainder `r3`: the pattern still has to
match `"`, then the greedy value group, then `valueCont`. -/
def eqCont (k : List Char) (r3 : List Char) :
    Option (List Char × List Char × Option (List Char)) :=
  match r3 with
  | c :: r4 => if c = '"' then (prefixCandidates r4).findSome? (valueCont k) else none
  | [] => none

/-- Continuation after the key group's split `kp`: the pattern still has to
match `"`, then ` ?= ?`, then `eqCont`. -/
def keyCont (kp : List Char × List Char) :
    Option (List Char × List Char × Option (List Char)) :=
  match kp with
  | (k, c :: r2) => if c = '"' then (matchEqCandidates r2).findSome? (eqCont k) else none
  | (_, []) => none

/-- Backtracking matcher for the record-line pattern, i.e.
`^"(?P<key>.+)" ?= ?"(?P<value>.+)";(?: /\* (?P<comment>.+) \*/)?$`,
returning the captured (key, value, comment) of the match Python `re` finds. -/
def fromLineChars (cs : List Char) : Option (List Char × List Char × Option (List Char)) :=
  match stripTrailingNewline cs with
  | c :: rest => if c = '"' then (prefixCandidates rest).findSome? keyCont else none
  | [] => none

namespace LocalizedString

/-- Embeds `LocalizedString.from_line`: parse one strings-file record line. -/
def from_line (line : String) : Option LocalizedString :=
  (fromLineChars line.data).map fun kvc =>
    ⟨⟨kvc.1⟩, some ⟨kvc.2.1⟩, kvc.2.2.map (fun c => ⟨c⟩)⟩

/-- Embeds `LocalizedString.parse_comment`: match a line that is exactly a block
comment, `^\w*/\* (?P<comment>.+) \*/\w*$`.  The leading greedy `\w*` is
forced to stop exactly at the maximal word-character prefix (a shorter
prefix would leave a word character where `/` is required); the greedy
`(.+)` prefers the longest comment whose remainder is ` */` followed by
word characters only. -/
def parse_comment (line : String) : Option String :=
  match (stripTrailingNewline line.data).dropWhile isWordChar with
  | '/' :: '*' :: ' ' :: body =>
    ((prefixCandidates body).findSome? fun cp =>
      match cp.2 with
      | ' ' :: '*' :: '/' :: w => if w.all isWordChar then some cp.1 else none
      | _ => none).map fun c => ⟨c⟩
  | _ => none

/-- Embeds `LocalizedString.is_raw`: the record has not been translated
(its value equals its key). -/
def is_raw (ls : LocalizedString) : Bool := ls.value == some ls.key

/-- Embeds `LocalizedString.__str__`: render the record as a strings-file line.
Python substitutes `self.key or ''` and `self.value or ''` and includes the
comment clause only when the comment is truthy. -/
def render (ls : LocalizedString) : String :=
  if truthy ls.comment then
    "\"" ++ ls.key ++ "\" = \"" ++ ls.value.getD "" ++ "\"; /* " ++ ls.comment.getD "" ++ " */"
  else
    "\"" ++ ls.key ++ "\" = \"" ++ ls.value.getD "" ++ "\";"

end LocalizedString

example : LocalizedString.from_line "\"KEY\" = \"VALUE\";" =
    some ⟨"KEY", some "VALUE", none⟩ := by decide

example : LocalizedString.from_line "\"KEY\" = \"VALUE\"; /* COMMENT */" =
    some ⟨"KEY", some "VALUE", some "COMMENT"⟩ := by decide

example : LocalizedString.parse_comment "/* Testing Comments */" =
    some "Testing Comments" := by decide

example : LocalizedString.parse_comment "\"K\" = \"V\"; /* c */" = none := by decide

/-- Python dictionaries keyed by strings, modelled as association lists. -/
abbrev Dict := List (String × LocalizedString)

/-- Dictionary lookup, `d.get(k, None)`. -/
def dictGet : Dict → String → Option LocalizedString
  | [], _ => none
  | (k', v) :: t, k => if k' = k then some v else dictGet t k

/-- Dictionary assignment `d[k] = v`: replace an existing binding in place,
otherwise append a new one. -/
def dictInsert : Dict → String → LocalizedString → Dict
  | [], k, v => [(k, v)]
  | (k', v') :: t, k, v => if k' = k then (k, v) :: t else (k', v') :: dictInsert t k v

/-- Embeds `match_strings`: complete the scanned strings with translations
from the reference strings.  Keys present only in the reference are dropped
(the Python merely logs them as deleted). -/
def match_strings (scanned_strings reference_strings : Dict) : Dict :=
  scanned_strings.map fun kv =>
    (kv.1,
      match dictGet reference_strings kv.1 with
      | some reference_value =>
        if reference_value.is_raw then kv.2
        else { reference_value with comment := kv.2.comment }
      | none => kv.2)

/-- Embeds `merge_dictionaries`: start from a copy of the reference and add
only those import entries whose key is absent from the reference. -/
def merge_dictionaries (reference_dict import_dict : Dict) : Dict :=
  reference_dict ++ import_dict.filter fun kv => (dictGet reference_dict kv.1).isNone

theorem dictGet_append (a b : Dict) (k : String) :
    dictGet (a ++ b) k = ((dictGet a k).or (dictGet b k)) := by
  induction a with
  | nil => simp [dictGet]
  | cons h t ih =>
    obtain ⟨k', v⟩ := h
    by_cases hk : k' = k <;> simp [dictGet, hk, ih]

theorem dictGet_filter_isNone (r : Dict) (i : Dict) (k : String) :
    dictGet (i.filter fun kv => (dictGet r kv.1).isNone) k =
      if (dictGet r k).isNone then dictGet i k else none := by
  induction i with
  | nil => simp [dictGet]
  | cons h t ih =>
    obtain ⟨k', v⟩ := h
    by_cases hk : k' = k
    · subst hk
      cases hr : (dictGet r k').isNone <;> simp [dictGet, List.filter, hr, ih]
    · cases hr : (dictGet r k').isNone <;> simp [dictGet, List.filter, hr, ih, hk]

theorem dictGet_map_entry (f : String → LocalizedString → LocalizedString) (d : Dict)
    (k : String) :
    dictGet (d.map fun kv => (kv.1, f kv.1 kv.2)) k = (dictGet d k).map (f k) := by
  induction d with
  | nil => simp [dictGet]
  | cons h t ih =>
    obtain ⟨k', v⟩ := h
    by_cases hk : k' = k
    · subst hk; simp [dictGet]
    · simp [dictGet, hk, ih]

/-- C9: `is_untranslated(r)` is `True` exactly when the record's value equals
its key (for an absent value it is `False`, since in Python `None` never
equals a string key). -/
theorem is_raw_iff (r : LocalizedString) :
    r.is_raw = true ↔ r.value = some r.key := by
  simp [LocalizedString.is_raw]

/-- C8: `merge(reference, imported)` is the union of both mappings; on a key
collision the reference entry wins, and the import contributes exactly the
keys absent from the reference. -/
theorem merge_dictionaries_spec (reference_dict import_dict : Dict) (k : String) :
    dictGet (merge_dictionaries reference_dict import_dict) k =
      match dictGet reference_dict k with
      | some v => some v
      | none => dictGet import_dict k := by
  rw [merge_dictionaries, dictGet_append, dictGet_filter_isNone]
  cases h : dictGet reference_dict k <;> simp [h, Option.or]

/-- C1: `match(scanned, reference)` has exactly the scanned key set (keys
present only in the reference are dropped); a key missing from the reference
or whose reference record is untranslated keeps the scanned record unchanged,
and a key with a translated reference record gets the reference record's
value with the scanned record's comment. -/
theorem match_strings_spec (scanned_strings reference_strings : Dict) (k : String) :
    dictGet (match_strings scanned_strings reference_strings) k =
      match dictGet scanned_strings k with
      | none => none
      | some v =>
        match dictGet reference_strings k with
        | none => some v
        | some rv => if rv.is_raw then some v else some { rv with comment := v.comment } := by
  rw [match_strings,
    dictGet_map_entry (fun k0 v0 =>
      match dictGet reference_strings k0 with
      | some reference_value =>
        if reference_value.is_raw then v0
        else { reference_value with comment := v0.comment }
      | none => v0)]
  cases hs : dictGet scanned_strings k <;> cases hr : dictGet reference_strings k <;>
    simp [hs, hr, apply_ite some]

/-- An ElementTree node of the translation export: a tag, an optional text
content, and the ordered list of children. -/
inductive XNode where
  | mk (tag : String) (text : Option String) (children : List XNode)

/-- Tag of a node. -/
def XNode.tag : XNode → String
  | .mk t _ _ => t

/-- Text of a node (`item.text`, possibly `None`). -/
def XNode.text : XNode → Option String
  | .mk _ x _ => x

/-- Children of a node (`node.getchildren()`). -/
def XNode.children : XNode → List XNode
  | .mk _ _ c => c

/-- Embeds the base/tran scan of `recur_node` over the immediate children of a
`TranslationSet` node: `base` and `tran` both start as `""` and each matching
child overwrites them with its (possibly absent) text. -/
def scanSet (children : List XNode) : Option String × Option String :=
  children.foldl
    (fun bt item =>
      let bt1 := if item.tag = "base" then (item.text, bt.2) else bt
      if item.tag = "tran" then (bt1.1, item.text) else bt1)
    (some "", some "")

/-- Embeds the guard of `recur_node`: `base != "" and tran != "" and
base != None and tran != None` and neither contains a double quote or a
newline (the `None` disjuncts are the `Option` pattern in `recur_node`
below; here both strings are already known to be present). -/
def setOk (b t : String) : Bool :=
  b != "" && t != "" &&
  !(b.contains '"') && !(b.contains '\n') && !(t.contains '"') && !(t.contains '\n')

mutual

/-- Embeds `recur_node`: on a `TranslationSet` node, scan its children for
`base`/`tran` texts and append one record when the guard passes (without
recursing further); on any other node recurse into the children in document
order. -/
def recur_node : XNode → List LocalizedString → List LocalizedString
  | .mk tag _ children, acc =>
    if tag = "TranslationSet" then
      match scanSet children with
      | (some b, some t) => if setOk b t then acc ++ [⟨b, some t, none⟩] else acc
      | _ => acc
    else recurList children acc

/-- Recursion of `recur_node` over a child list, leftmost first. -/
def recurList : List XNode → List LocalizedString → List LocalizedString
  | [], acc => acc
  | n :: ns, acc => recurList ns (recur_node n acc)

end

/-- Embeds `strings_from_encoded_lg_file`.  The Python wraps only the
document parse in `try`/`except`; the handler merely logs, so after a parse
failure the following use of `root` raises `NameError` (`root` was never
bound) and that exception propagates to the caller.  The document-parse
outcome is modelled as an `Option XNode` argument and the escaping
`NameError` as `Except.error`. -/
def strings_from_encoded_lg_file (parsed : Option XNode) :
    Except String (List LocalizedString) :=
  match parsed with
  | some root => .ok (recur_node root [])
  | none => .error "NameError: name 'root' is not defined"

theorem setOk_bool_iff (b t : String) :
    setOk b t = true ↔
      (b ≠ "" ∧ t ≠ "" ∧ ¬(b.contains '"' = true) ∧ ¬(b.contains '\n' = true)
        ∧ ¬(t.contains '"' = true) ∧ ¬(t.contains '\n' = true)) := by
  simp [setOk, and_assoc]

/-- C6: processing a `TranslationSet` node emits exactly one record, with the
base text as key and the tran text as value, precisely when both texts are
present, non-empty and free of double quotes and newlines; a violating set
emits nothing. -/
theorem recur_node_translation_set (text : Option String) (children : List XNode)
    (acc : List LocalizedString) :
    recur_node (.mk "TranslationSet" text children) acc =
      acc ++
        (match scanSet children with
         | (some b, some t) =>
           if b ≠ "" ∧ t ≠ "" ∧ ¬(b.contains '"') ∧ ¬(b.contains '\n')
               ∧ ¬(t.contains '"') ∧ ¬(t.contains '\n') then
             [⟨b, some t, none⟩]
           else []
         | _ => []) := by
  rcases h : scanSet children with ⟨b?, t?⟩
  rw [recur_node, if_pos rfl, h]
  rcases b? with _ | b <;> rcases t? with _ | t <;> simp only [List.append_nil]
  by_cases hok : setOk b t = true
  · have hc := (setOk_bool_iff b t).mp hok
    simp [hok, hc]
  · have hc : ¬(b ≠ "" ∧ t ≠ "" ∧ ¬(b.contains '"' = true) ∧ ¬(b.contains '\n' = true)
        ∧ ¬(t.contains '"' = true) ∧ ¬(t.contains '\n' = true)) :=
      fun hc => hok ((setOk_bool_iff b t).mpr hc)
    simp [hok]
    intro h1 h2 h3 h4 h5
    simp [h1, h2, h3, h4, h5] at hc
    exact hc

/-- C7 (code bug): when the translation-export document fails to parse,
`strings_from_encoded_lg_file` does not return an empty record list — the
`NameError` raised on the unbound `root` escapes to the caller instead. -/
theorem strings_from_encoded_lg_file_parse_failure :
    strings_from_encoded_lg_file none ≠ Except.ok [] := by
  simp [strings_from_encoded_lg_file]

/-- Literal sentinel comment inserted by the string-extraction utility. -/
def sentinelComment : String := "No comment provided by engineer."

/-- The record branch of the line loop of `strings_from_encoded_file`: parse a
record line, attach the pending comment when the record has no truthy inline
comment, and store the record under its key. -/
def encodedFileRecordStep (st : Dict × Option String) (line : String) :
    Dict × Option String :=
  match LocalizedString.from_line line with
  | some localized_string =>
    let localized_string :=
      if ¬ truthy localized_string.comment then
        { localized_string with comment := st.2 }
      else localized_string
    (dictInsert st.1 localized_string.key localized_string, st.2)
  | none => st

/-- One step of the line loop of `strings_from_encoded_file`, threading the
state (accumulated dictionary, pending standalone comment). -/
def encodedFileStep (st : Dict × Option String) (rawLine : String) :
    Dict × Option String :=
  let line := pyStrip rawLine
  if line = "" then (st.1, none)
  else
    match LocalizedString.parse_comment line with
    | some current_comment =>
      if current_comment ≠ "" then
        if current_comment ≠ sentinelComment then (st.1, some current_comment)
        else st
      else encodedFileRecordStep st line
    | none => encodedFileRecordStep st line

/-- Embeds `strings_from_encoded_file` over the decoded line list: fold the
line loop from an empty dictionary and no pending comment. -/
def strings_from_encoded_file (lines : List String) : Dict :=
  (lines.foldl encodedFileStep ([], none)).1

theorem dictGet_dictInsert (d : Dict) (k0 : String) (v : LocalizedString) (k : String) :
    dictGet (dictInsert d k0 v) k = if k0 = k then some v else dictGet d k := by
  induction d with
  | nil => simp [dictGet, dictInsert]
  | cons h t ih =>
    obtain ⟨k', v'⟩ := h
    by_cases hk : k' = k0
    · subst hk
      by_cases hkk : k' = k <;> simp [dictGet, dictInsert, hkk]
    · by_cases hkk : k' = k
      · subst hkk
        have : ¬ k0 = k' := fun h => hk h.symm
        simp [dictGet, dictInsert, hk, this]
      · simp [dictGet, dictInsert, hk, hkk, ih]

theorem encodedFileRecordStep_pending (st : Dict × Option String) (line : String) :
    (encodedFileRecordStep st line).2 = st.2 := by
  rw [encodedFileRecordStep]
  cases LocalizedString.from_line line <;> simp

theorem encodedFileRecordStep_dict (st : Dict × Option String) (line : String)
    (hp : st.2 ≠ some sentinelComment) (k : String) (ls : LocalizedString)
    (hget : dictGet (encodedFileRecordStep st line).1 k = some ls)
    (hsent : ls.comment = some sentinelComment) :
    dictGet st.1 k = some ls ∨
      ∃ ls0, LocalizedString.from_line line = some ls0 ∧
        ls0.comment = some sentinelComment := by
  rw [encodedFileRecordStep] at hget
  cases h0 : LocalizedString.from_line line with
  | none => rw [h0] at hget; exact .inl hget
  | some ls0 =>
    rw [h0] at hget
    simp only [] at hget
    by_cases htr : truthy ls0.comment = true
    · rw [if_neg (by simp [htr])] at hget
      rw [dictGet_dictInsert] at hget
      by_cases hk : ls0.key = k
      · rw [if_pos hk] at hget
        injection hget with h
        refine .inr ⟨ls0, rfl, ?_⟩
        rw [← h] at hsent
        exact hsent
      · rw [if_neg hk] at hget
        exact .inl hget
    · rw [if_pos (by simp [htr])] at hget
      rw [dictGet_dictInsert] at hget
      by_cases hk : ls0.key = k
      · rw [if_pos hk] at hget
        exfalso
        apply hp
        have : ls = { ls0 with comment := st.2 } := by
          injection hget with h; exact h.symm
        rw [this] at hsent
        exact hsent
      · rw [if_neg hk] at hget
        exact .inl hget

theorem encodedFileStep_inv (st : Dict × Option String) (line : String)
    (hp : st.2 ≠ some sentinelComment) :
    (encodedFileStep st line).2 ≠ some sentinelComment ∧
    ∀ k ls, dictGet (encodedFileStep st line).1 k = some ls →
      ls.comment = some sentinelComment →
      dictGet st.1 k = some ls ∨
        ∃ ls0, LocalizedString.from_line (pyStrip line) = some ls0 ∧
          ls0.comment = some sentinelComment := by
  simp only [encodedFileStep]
  by_cases hb : pyStrip line = ""
  · rw [if_pos hb]
    exact ⟨by simp, fun k ls h _ => .inl h⟩
  · rw [if_neg hb]
    have hrec : (encodedFileRecordStep st (pyStrip line)).2 ≠ some sentinelComment ∧
        ∀ k ls, dictGet (encodedFileRecordStep st (pyStrip line)).1 k = some ls →
          ls.comment = some sentinelComment →
          dictGet st.1 k = some ls ∨
            ∃ ls0, LocalizedString.from_line (pyStrip line) = some ls0 ∧
              ls0.comment = some sentinelComment := by
      constructor
      · rw [encodedFileRecordStep_pending]; exact hp
      · exact fun k ls h hs => encodedFileRecordStep_dict st (pyStrip line) hp k ls h hs
    cases hc : LocalizedString.parse_comment (pyStrip line) with
    | some cc =>
      by_cases hcc : cc = ""
      · subst hcc
        simpa using hrec
      · by_cases hsen : cc = sentinelComment
        · have hif : (cc ≠ sentinelComment) = False := by simp [hsen]
          have hif2 : (cc ≠ "") = True := by simp [hcc]
          simp only [hif, hif2, if_true, if_false]
          exact ⟨hp, fun k ls h _ => .inl h⟩
        · have hif : (cc ≠ sentinelComment) = True := by simp [hsen]
          have hif2 : (cc ≠ "") = True := by simp [hcc]
          simp only [hif, hif2, if_true, if_false]
          exact ⟨by simp [hsen], fun k ls h _ => .inl h⟩
    | none => exact hrec

theorem encodedFile_fold_inv (lines : List String) (st : Dict × Option String)
    (hp : st.2 ≠ some sentinelComment) :
    (lines.foldl encodedFileStep st).2 ≠ some sentinelComment ∧
    ∀ k ls, dictGet (lines.foldl encodedFileStep st).1 k = some ls →
      ls.comment = some sentinelComment →
      dictGet st.1 k = some ls ∨
        ∃ line ∈ lines, ∃ ls0, LocalizedString.from_line (pyStrip line) = some ls0 ∧
          ls0.comment = some sentinelComment := by
  induction lines generalizing st with
  | nil => exact ⟨hp, fun k ls h _ => .inl h⟩
  | cons line rest ih =>
    simp only [List.foldl_cons]
    have hstep := encodedFileStep_inv st line hp
    have hrest := ih (encodedFileStep st line) hstep.1
    refine ⟨hrest.1, fun k ls h hs => ?_⟩
    rcases hrest.2 k ls h hs with h1 | h2
    · rcases hstep.2 k ls h1 hs with h3 | h4
      · exact .inl h3
      · exact .inr ⟨line, by simp, h4⟩
    · obtain ⟨l0, hl0, hrest2⟩ := h2
      exact .inr ⟨l0, by simp [hl0], hrest2⟩

/-- C5 (amended): the sentinel comment is normalized away only when it stands
on its own comment line — the pending standalone comment is never the
sentinel, so any parsed record carrying the sentinel comment received it from
its own record line's inline comment, which `from_line` preserves. -/
theorem strings_from_encoded_file_sentinel (lines : List String) (k : String)
    (ls : LocalizedString)
    (hget : dictGet (strings_from_encoded_file lines) k = some ls)
    (hsent : ls.comment = some sentinelComment) :
    ∃ line ∈ lines, ∃ ls0, LocalizedString.from_line (pyStrip line) = some ls0 ∧
      ls0.comment = some sentinelComment := by
  have h := encodedFile_fold_inv lines ([], none) (by simp)
  rcases h.2 k ls hget hsent with h1 | h2
  · simp [dictGet] at h1
  · exact h2

/-- A record line whose inline comment is exactly the sentinel text. -/
def sentinelRecordLine : String :=
  "\"K\" = \"V\"; /* No comment provided by engineer. */"

/-- Witness for the amended C5 theorem at a concrete one-line file. -/
theorem strings_from_encoded_file_sentinel_witness :
    ∃ line ∈ [sentinelRecordLine], ∃ ls0,
      LocalizedString.from_line (pyStrip line) = some ls0 ∧
      ls0.comment = some sentinelComment :=
  strings_from_encoded_file_sentinel [sentinelRecordLine] "K"
    ⟨"K", some "V", some sentinelComment⟩ (by decide) (by decide)

/-- C5 counterexample: parsing a file whose single line is a record with the
sentinel as its inline comment yields a record that still carries the
sentinel comment, contradicting the claim that records from the parsing
pipeline never do. -/
theorem strings_from_encoded_file_inline_sentinel_kept :
    dictGet (strings_from_encoded_file [sentinelRecordLine]) "K" =
      some ⟨"K", some "V", some sentinelComment⟩ := by decide

/-- Lexicographic (code-point) order on character lists, as Python compares
strings. -/
def charListLe : List Char → List Char → Bool
  | [], _ => true
  | _ :: _, [] => false
  | a :: as, b :: bs => if a < b then true else if b < a then false else charListLe as bs

/-- Python string comparison `a <= b`. -/
def pyLe (a b : String) : Bool := charListLe a.data b.data

/-- Insert an element into a sorted list (ascending by `le`). -/
def insertSorted (le : String → String → Bool) (x : String) : List String → List String
  | [] => [x]
  | y :: ys => if le x y then x :: y :: ys else y :: insertSorted le x ys

/-- Python `list.sort()` on strings: ascending by code-point order.  Modelled
by insertion sort; since equal strings are identical, the sorted result is
the same list Python produces. -/
def sortStrings (l : List String) : List String := l.foldr (insertSorted pyLe) []

/-- Embeds `sorted_strings_from_dict`: the record values listed by
alphabetically sorted key. -/
def sorted_strings_from_dict (strings : Dict) : List LocalizedString :=
  (sortStrings (strings.map Prod.fst)).filterMap (dictGet strings)

/-- Python `str(comment)` on an optional comment: `None` prints as `"None"`. -/
def commentStr : Option String → String
  | none => "None"
  | some s => s

/-- Substring occurrence: Python `hay.find(needle) >= 0`. -/
def containsSub (hay needle : List Char) : Bool :=
  match hay with
  | [] => needle.isEmpty
  | c :: t => needle.isPrefixOf (c :: t) || containsSub t needle

/-- Bool test used by the categorizing writer:
`str(comment).find('extra') >= 0`. -/
def findsExtra (ls : LocalizedString) : Bool :=
  containsSub (commentStr ls.comment).data "extra".data

/-- The three key sets built by the first loop of `strings_to_file`. -/
structure Buckets where
  trans_keys : List String
  not_keys : List String
  extra_keys : List String
deriving DecidableEq, Repr

/-- Embeds the escape-key set built at the top of `strings_to_file`. -/
def escapeKeySet (escape_strings : Dict) : List String :=
  (sorted_strings_from_dict escape_strings).foldl (fun s e => s.insert e.key) []

/-- One iteration of the categorization loop of `strings_to_file`. -/
def bucketStep (escape_keys : List String) (b : Buckets) (ls : LocalizedString) :
    Buckets :=
  if ls.is_raw then
    if ls.key ∈ escape_keys then
      if findsExtra ls then { b with extra_keys := b.extra_keys.insert ls.key }
      else { b with trans_keys := b.trans_keys.insert ls.key }
    else { b with not_keys := b.not_keys.insert ls.key }
  else
    if findsExtra ls then { b with extra_keys := b.extra_keys.insert ls.key }
    else { b with trans_keys := b.trans_keys.insert ls.key }

/-- Embeds the categorization loop of `strings_to_file`. -/
def categorize (localized_strings escape_strings : Dict) : Buckets :=
  (sorted_strings_from_dict localized_strings).foldl
    (bucketStep (escapeKeySet escape_strings)) ⟨[], [], []⟩

/-- Embeds `strings_to_file`: the pair of (written chunks, final state of the
input dictionary).  The Python mutates each emitted record's comment to
`None` just before rendering it in the Translated and Not-Translated loops;
the returned dictionary reflects those in-place mutations. -/
def strings_to_file (localized_strings escape_strings : Dict) :
    List String × Dict :=
  let b := categorize localized_strings escape_strings
  let sorted := sorted_strings_from_dict localized_strings
  let transOut := sorted.filterMap fun ls =>
    if ls.key ∈ b.trans_keys then
      some (LocalizedString.render { ls with comment := none } ++ "\n\n")
    else none
  let extraOut :=
    if b.extra_keys.isEmpty then []
    else
      ["\n", "/*Extra*/", "\n", "\n", "\n"] ++
        sorted.filterMap fun ls =>
          if ls.key ∈ b.extra_keys then some (LocalizedString.render ls ++ "\n\n")
          else none
  let notOut :=
    if b.not_keys.isEmpty then []
    else
      ["\n", "/*Not Translated*/", "\n", "\n", "\n"] ++
        sorted.filterMap fun ls =>
          if ls.key ∈ b.not_keys then
            some (LocalizedString.render { ls with comment := none } ++ "\n\n")
          else none
  let final := localized_strings.map fun kv =>
    (kv.1,
      if kv.2.key ∈ b.trans_keys ∨ kv.2.key ∈ b.not_keys then
        { kv.2 with comment := none }
      else kv.2)
  (transOut ++ extraOut ++ notOut, final)

/-- Condition under which the categorization loop puts a record's key into
the Extra set. -/
def extraCond (esc : List String) (ls : LocalizedString) : Prop :=
  findsExtra ls = true ∧ (ls.is_raw = false ∨ ls.key ∈ esc)

/-- Condition under which the categorization loop puts a record's key into
the Translated set. -/
def transCond (esc : List String) (ls : LocalizedString) : Prop :=
  findsExtra ls = false ∧ (ls.is_raw = false ∨ ls.key ∈ esc)

/-- Condition under which the categorization loop puts a record's key into
the Not-Translated set. -/
def notCond (esc : List String) (ls : LocalizedString) : Prop :=
  ls.is_raw = true ∧ ls.key ∉ esc

theorem bucketStep_extra (esc : List String) (b : Buckets) (x : LocalizedString)
    (k : String) :
    k ∈ (bucketStep esc b x).extra_keys ↔
      k ∈ b.extra_keys ∨ (x.key = k ∧ extraCond esc x) := by
  rw [bucketStep]
  by_cases hraw : x.is_raw <;> by_cases hesc : x.key ∈ esc <;>
    by_cases hf : findsExtra x <;>
    simp [hraw, hesc, hf, extraCond, List.mem_insert_iff, eq_comm, and_comm, or_comm]

theorem bucketStep_trans (esc : List String) (b : Buckets) (x : LocalizedString)
    (k : String) :
    k ∈ (bucketStep esc b x).trans_keys ↔
      k ∈ b.trans_keys ∨ (x.key = k ∧ transCond esc x) := by
  rw [bucketStep]
  by_cases hraw : x.is_raw <;> by_cases hesc : x.key ∈ esc <;>
    by_cases hf : findsExtra x <;>
    simp [hraw, hesc, hf, transCond, List.mem_insert_iff, eq_comm, and_comm, or_comm]

theorem bucketStep_not (esc : List String) (b : Buckets) (x : LocalizedString)
    (k : String) :
    k ∈ (bucketStep esc b x).not_keys ↔
      k ∈ b.not_keys ∨ (x.key = k ∧ notCond esc x) := by
  rw [bucketStep]
  by_cases hraw : x.is_raw <;> by_cases hesc : x.key ∈ esc <;>
    by_cases hf : findsExtra x <;>
    simp [hraw, hesc, hf, notCond, List.mem_insert_iff, eq_comm, and_comm, or_comm]

theorem foldl_bucket_mem (esc : List String) (l : List LocalizedString)
    (b : Buckets) (k : String) :
    (k ∈ (l.foldl (bucketStep esc) b).extra_keys ↔
      k ∈ b.extra_keys ∨ ∃ ls ∈ l, ls.key = k ∧ extraCond esc ls) ∧
    (k ∈ (l.foldl (bucketStep esc) b).trans_keys ↔
      k ∈ b.trans_keys ∨ ∃ ls ∈ l, ls.key = k ∧ transCond esc ls) ∧
    (k ∈ (l.foldl (bucketStep esc) b).not_keys ↔
      k ∈ b.not_keys ∨ ∃ ls ∈ l, ls.key = k ∧ notCond esc ls) := by
  induction l generalizing b with
  | nil => simp
  | cons x t ih =>
    simp only [List.foldl_cons, List.mem_cons]
    have h := ih (bucketStep esc b x)
    refine ⟨?_, ?_, ?_⟩
    · rw [h.1, bucketStep_extra]
      constructor
      · rintro ((h1 | h1) | ⟨ls, hls, hk, hc⟩)
        · exact .inl h1
        · exact .inr ⟨x, .inl rfl, h1⟩
        · exact .inr ⟨ls, .inr hls, hk, hc⟩
      · rintro (h1 | ⟨ls, (rfl | hls), hk, hc⟩)
        · exact .inl (.inl h1)
        · exact .inl (.inr ⟨hk, hc⟩)
        · exact .inr ⟨ls, hls, hk, hc⟩
    · rw [h.2.1, bucketStep_trans]
      constructor
      · rintro ((h1 | h1) | ⟨ls, hls, hk, hc⟩)
        · exact .inl h1
        · exact .inr ⟨x, .inl rfl, h1⟩
        · exact .inr ⟨ls, .inr hls, hk, hc⟩
      · rintro (h1 | ⟨ls, (rfl | hls), hk, hc⟩)
        · exact .inl (.inl h1)
        · exact .inl (.inr ⟨hk, hc⟩)
        · exact .inr ⟨ls, hls, hk, hc⟩
    · rw [h.2.2, bucketStep_not]
      constructor
      · rintro ((h1 | h1) | ⟨ls, hls, hk, hc⟩)
        · exact .inl h1
        · exact .inr ⟨x, .inl rfl, h1⟩
        · exact .inr ⟨ls, .inr hls, hk, hc⟩
      · rintro (h1 | ⟨ls, (rfl | hls), hk, hc⟩)
        · exact .inl (.inl h1)
        · exact .inl (.inr ⟨hk, hc⟩)
        · exact .inr ⟨ls, hls, hk, hc⟩

theorem dictGet_some_mem (d : Dict) (k : String) (v : LocalizedString)
    (h : dictGet d k = some v) : (k, v) ∈ d := by
  induction d with
  | nil => simp [dictGet] at h
  | cons p t ih =>
    obtain ⟨k', v'⟩ := p
    by_cases hk : k' = k
    · subst hk
      rw [dictGet, if_pos rfl] at h
      injection h with h
      subst h
      exact .head t
    · rw [dictGet, if_neg hk] at h
      exact .tail _ (ih h)

theorem dictGet_some_key_mem (d : Dict) (k : String) (v : LocalizedString)
    (h : dictGet d k = some v) : k ∈ d.map Prod.fst := by
  have := dictGet_some_mem d k v h
  exact List.mem_map.mpr ⟨(k, v), this, rfl⟩

theorem mem_insertSorted (le : String → String → Bool) (x a : String)
    (l : List String) : a ∈ insertSorted le x l ↔ a = x ∨ a ∈ l := by
  induction l with
  | nil => simp [insertSorted]
  | cons y ys ih =>
    rw [insertSorted]
    by_cases h : le x y
    · simp [h]
    · simp only [if_neg h, List.mem_cons, ih]
      tauto

theorem mem_sortStrings (l : List String) (a : String) :
    a ∈ sortStrings l ↔ a ∈ l := by
  induction l with
  | nil => simp [sortStrings]
  | cons x t ih =>
    rw [sortStrings, List.foldr_cons, mem_insertSorted]
    rw [sortStrings] at ih
    simp [ih]

theorem mem_sorted_strings_of_dictGet (d : Dict) (k : String) (ls : LocalizedString)
    (h : dictGet d k = some ls) : ls ∈ sorted_strings_from_dict d := by
  rw [sorted_strings_from_dict]
  refine List.mem_filterMap.mpr ⟨k, ?_, h⟩
  rw [mem_sortStrings]
  exact dictGet_some_key_mem d k ls h

theorem sorted_strings_dictGet_key (d : Dict)
    (hwf : ∀ p ∈ d, (p.2).key = p.1) (ls : LocalizedString)
    (h : ls ∈ sorted_strings_from_dict d) : dictGet d ls.key = some ls := by
  rw [sorted_strings_from_dict] at h
  obtain ⟨k', _, hget⟩ := List.mem_filterMap.mp h
  have hk := hwf (k', ls) (dictGet_some_mem d k' ls hget)
  simp only [] at hk
  rw [hk]
  exact hget

/-- C3 (amended): a record whose comment contains the substring "extra" is
put in the Extra section when it is translated or its key is in the escape
mapping; an untranslated record whose key is absent from the escape mapping
is put in the Not-Translated section regardless of its comment. -/
theorem categorize_extra_comment (localized_strings escape_strings : Dict)
    (k : String) (ls : LocalizedString)
    (hget : dictGet localized_strings k = some ls) :
    (containsSub (commentStr ls.comment).data "extra".data = true →
      (ls.is_raw = false ∨ ls.key ∈ escapeKeySet escape_strings) →
      ls.key ∈ (categorize localized_strings escape_strings).extra_keys) ∧
    (ls.is_raw = true → ls.key ∉ escapeKeySet escape_strings →
      ls.key ∈ (categorize localized_strings escape_strings).not_keys) := by
  have hmem := mem_sorted_strings_of_dictGet localized_strings k ls hget
  have hfold := foldl_bucket_mem (escapeKeySet escape_strings)
    (sorted_strings_from_dict localized_strings) ⟨[], [], []⟩
  constructor
  · intro hfind hcase
    rw [categorize, (hfold ls.key).1]
    exact .inr ⟨ls, hmem, rfl, hfind, hcase⟩
  · intro hraw hesc
    rw [categorize, (hfold ls.key).2.2]
    exact .inr ⟨ls, hmem, rfl, hraw, hesc⟩

/-- C3 counterexample input: a single untranslated record whose comment
contains "extra", with an empty escape mapping. -/
def rawExtraDict : Dict := [("K", ⟨"K", some "K", some "extra note"⟩)]

/-- C3 counterexample: an untranslated record with comment "extra note" whose
key is not in the escape mapping is not placed in the Extra section (no Extra
header is even emitted); it lands in Not-Translated instead. -/
theorem categorize_raw_extra_not_in_extra :
    ¬ ("K" ∈ (categorize rawExtraDict []).extra_keys) ∧
    "K" ∈ (categorize rawExtraDict []).not_keys ∧
    findsExtra ⟨"K", some "K", some "extra note"⟩ = true ∧
    "/*Extra*/" ∉ (strings_to_file rawExtraDict []).1 := by decide

/-- Witness for the amended C3 theorem: a translated record with comment
"extra note" is bucketed into the Extra section. -/
theorem categorize_extra_comment_witness :
    "K" ∈ (categorize [("K", ⟨"K", some "V", some "extra note"⟩)] []).extra_keys :=
  (categorize_extra_comment [("K", ⟨"K", some "V", some "extra note"⟩)] []
    "K" ⟨"K", some "V", some "extra note"⟩ (by decide)).1 (by decide)
    (Or.inl (by decide))

theorem categorize_extra_disjoint (localized_strings escape_strings : Dict)
    (hwf : ∀ p ∈ localized_strings, (p.2).key = p.1)
    (k : String) (ls : LocalizedString)
    (hget : dictGet localized_strings k = some ls)
    (hextra : k ∈ (categorize localized_strings escape_strings).extra_keys) :
    k ∉ (categorize localized_strings escape_strings).trans_keys ∧
    k ∉ (categorize localized_strings escape_strings).not_keys := by
  have hfold := foldl_bucket_mem (escapeKeySet escape_strings)
    (sorted_strings_from_dict localized_strings) ⟨[], [], []⟩ k
  rw [categorize] at hextra ⊢
  have hls_of : ∀ ls', ls' ∈ sorted_strings_from_dict localized_strings →
      ls'.key = k → ls' = ls := by
    intro ls' hmem hk
    have := sorted_strings_dictGet_key localized_strings hwf ls' hmem
    rw [hk, hget] at this
    injection this with h
    exact h.symm
  obtain ⟨ls1, hm1, hk1, hc1⟩ := (hfold.1.mp hextra).resolve_left (by simp)
  have he1 : ls1 = ls := hls_of ls1 hm1 hk1
  subst he1
  constructor
  · intro htr
    obtain ⟨ls2, hm2, hk2, hc2⟩ := (hfold.2.1.mp htr).resolve_left (by simp)
    rw [hls_of ls2 hm2 hk2] at hc2
    rw [extraCond] at hc1
    rw [transCond] at hc2
    rw [hc1.1] at hc2
    exact absurd hc2.1 (by simp)
  · intro hnt
    obtain ⟨ls2, hm2, hk2, hc2⟩ := (hfold.2.2.mp hnt).resolve_left (by simp)
    rw [hls_of ls2 hm2 hk2] at hc2
    rw [extraCond] at hc1
    rw [notCond] at hc2
    rcases hc1.2 with h | h
    · rw [hc2.1] at h
      exact absurd h (by simp)
    · exact hc2.2 h

/-- C10: the categorizing writer mutates its input mapping — every record it
emits in the Translated or Not-Translated section has its comment set to
absent in the caller's mapping, while Extra-section records keep their
comments.  The hypothesis states that the mapping is well-formed (each
record is stored under its own key), as every mapping built by the program
is. -/
theorem strings_to_file_mutates_comments (localized_strings escape_strings : Dict)
    (hwf : ∀ p ∈ localized_strings, (p.2).key = p.1)
    (k : String) (ls : LocalizedString)
    (hget : dictGet localized_strings k = some ls) :
    ((k ∈ (categorize localized_strings escape_strings).trans_keys ∨
        k ∈ (categorize localized_strings escape_strings).not_keys) →
      dictGet (strings_to_file localized_strings escape_strings).2 k =
        some { ls with comment := none }) ∧
    (k ∈ (categorize localized_strings escape_strings).extra_keys →
      dictGet (strings_to_file localized_strings escape_strings).2 k = some ls) := by
  have hkey : ls.key = k := hwf (k, ls) (dictGet_some_mem localized_strings k ls hget)
  have hmap :
      dictGet (strings_to_file localized_strings escape_strings).2 k =
        (dictGet localized_strings k).map fun v =>
          if v.key ∈ (categorize localized_strings escape_strings).trans_keys ∨
              v.key ∈ (categorize localized_strings escape_strings).not_keys then
            { v with comment := none }
          else v := by
    rw [strings_to_file]
    exact dictGet_map_entry
      (fun _ v =>
        if v.key ∈ (categorize localized_strings escape_strings).trans_keys ∨
            v.key ∈ (categorize localized_strings escape_strings).not_keys then
          { v with comment := none }
        else v)
      localized_strings k
  rw [hmap, hget]
  constructor
  · intro hin
    simp only [Option.map_some']
    rw [hkey, if_pos hin]
  · intro hex
    have hdisj := categorize_extra_disjoint localized_strings escape_strings hwf k ls
      hget hex
    have : ¬ (ls.key ∈ (categorize localized_strings escape_strings).trans_keys ∨
        ls.key ∈ (categorize localized_strings escape_strings).not_keys) := by
      rw [hkey]
      rintro (h | h)
      · exact hdisj.1 h
      · exact hdisj.2 h
    simp only [Option.map_some']
    rw [if_neg this]

/-- Witness for the C10 theorem: a translated record with an ordinary comment
loses that comment in the caller's mapping after the writer runs. -/
theorem strings_to_file_mutates_comments_witness :
    dictGet (strings_to_file [("K", ⟨"K", some "V", some "from code"⟩)] []).2 "K" =
      some ⟨"K", some "V", none⟩ :=
  (strings_to_file_mutates_comments [("K", ⟨"K", some "V", some "from code"⟩)] []
    (by decide) "K" ⟨"K", some "V", some "from code"⟩ (by decide)).1
    (Or.inl (by decide))

theorem charListLe_total (a b : List Char) :
    charListLe a b = true ∨ charListLe b a = true := by
  induction a generalizing b with
  | nil => exact .inl rfl
  | cons x xs ih =>
    cases b with
    | nil => exact .inr rfl
    | cons y ys =>
      rw [charListLe, charListLe]
      by_cases hxy : x < y
      · simp [hxy, lt_asymm hxy]
      · by_cases hyx : y < x
        · simp [hxy, hyx]
        · simpa [hxy, hyx] using ih ys

theorem charListLe_trans (a b c : List Char) (h1 : charListLe a b = true)
    (h2 : charListLe b c = true) : charListLe a c = true := by
  induction a generalizing b c with
  | nil => rfl
  | cons x xs ih =>
    cases b with
    | nil => simp [charListLe] at h1
    | cons y ys =>
      cases c with
      | nil => simp [charListLe] at h2
      | cons z zs =>
        rw [charListLe] at h1 h2 ⊢
        by_cases hxy : x < y
        · by_cases hyz : y < z
          · simp [lt_trans hxy hyz]
          · by_cases hzy : z < y
            · rw [if_neg hyz, if_pos hzy] at h2
              exact absurd h2 (by simp)
            · have hxz : x < z := lt_of_lt_of_le hxy (le_of_not_lt hzy)
              simp [hxz]
        · by_cases hyx : y < x
          · rw [if_neg hxy, if_pos hyx] at h1
            exact absurd h1 (by simp)
          · have hxy' : x = y := le_antisymm (le_of_not_lt hyx) (le_of_not_lt hxy)
            subst hxy'
            rw [if_neg hxy, if_neg hyx] at h1
            by_cases hyz : x < z
            · simp [hyz]
            · by_cases hzy : z < x
              · rw [if_neg hyz, if_pos hzy] at h2
                exact absurd h2 (by simp)
              · have hxz : x = z := le_antisymm (le_of_not_lt hzy) (le_of_not_lt hyz)
                subst hxz
                rw [if_neg hyz, if_neg hyz] at h2
                simp only [if_neg hyz]
                exact ih ys zs h1 h2

theorem pyLe_total (a b : String) : pyLe a b = true ∨ pyLe b a = true :=
  charListLe_total a.data b.data

theorem pyLe_trans (a b c : String) (h1 : pyLe a b = true) (h2 : pyLe b c = true) :
    pyLe a c = true :=
  charListLe_trans a.data b.data c.data h1 h2

theorem insertSorted_perm (le : String → String → Bool) (x : String) (l : List String) :
    List.Perm (insertSorted le x l) (x :: l) := by
  induction l with
  | nil => rfl
  | cons y ys ih =>
    rw [insertSorted]
    by_cases h : le x y
    · rw [if_pos h]
    · rw [if_neg h]
      exact (ih.cons y).trans (List.Perm.swap x y ys)

theorem sortStrings_perm (l : List String) : List.Perm (sortStrings l) l := by
  induction l with
  | nil => rfl
  | cons x t ih =>
    rw [sortStrings, List.foldr_cons]
    rw [sortStrings] at ih
    exact (insertSorted_perm pyLe x _).trans (ih.cons x)

theorem pairwise_insertSorted (x : String) (l : List String)
    (h : l.Pairwise (fun a b => pyLe a b = true)) :
    (insertSorted pyLe x l).Pairwise (fun a b => pyLe a b = true) := by
  induction l with
  | nil => simp [insertSorted]
  | cons y ys ih =>
    rw [insertSorted]
    rw [List.pairwise_cons] at h
    by_cases hle : pyLe x y
    · rw [if_pos hle]
      refine List.Pairwise.cons ?_ (List.Pairwise.cons h.1 h.2)
      intro a ha
      rcases List.mem_cons.mp ha with rfl | ha
      · exact hle
      · exact pyLe_trans x y a hle (h.1 a ha)
    · rw [if_neg hle]
      refine List.Pairwise.cons ?_ (ih h.2)
      intro a ha
      rcases (mem_insertSorted pyLe x a ys).mp ha with rfl | ha
      · exact (pyLe_total a y).resolve_left (by simpa using hle)
      · exact h.1 a ha

theorem sortStrings_pairwise (l : List String) :
    (sortStrings l).Pairwise (fun a b => pyLe a b = true) := by
  induction l with
  | nil => simp [sortStrings]
  | cons x t ih =>
    rw [sortStrings, List.foldr_cons]
    rw [sortStrings] at ih
    exact pairwise_insertSorted x _ ih

/-- One iteration of the line loop of `update_encoded_file_with_strings`,
threading (emitted lines, consumed keys): a line that parses as a record is
replaced by the new mapping's rendering of its key (or dropped when the key
is absent from the new mapping); any other line is copied through. -/
def updateStep (localized_strings : Dict) (acc : List String × List String)
    (line : String) : List String × List String :=
  match LocalizedString.from_line (pyStrip line) with
  | some current_string =>
    match dictGet localized_strings current_string.key with
    | some localized_string =>
      (acc.1 ++ [LocalizedString.render localized_string],
        acc.2.insert current_string.key)
    | none => acc
  | none => (acc.1 ++ [line], acc.2)

/-- Embeds `update_encoded_file_with_strings` over the original file's line
list: run the line loop, then append the never-consumed entries of the new
mapping under the `/* New strings */` header, sorted. -/
def update_encoded_file_with_strings (lines : List String)
    (localized_strings : Dict) : List String :=
  let st := lines.foldl (updateStep localized_strings) ([], [])
  let new_strings := localized_strings.filterMap fun p =>
    if p.2.key ∈ st.2 then none else some (LocalizedString.render p.2)
  if new_strings.isEmpty then st.1
  else st.1 ++ ["", "/* New strings */"] ++ sortStrings new_strings

/-- Declarative per-line output of the updater: a record line maps to the new
mapping's rendering of its key (or is dropped); a non-record line maps to
itself. -/
def updateLineOut (localized_strings : Dict) (line : String) : Option String :=
  match LocalizedString.from_line (pyStrip line) with
  | some current_string =>
    (dictGet localized_strings current_string.key).map LocalizedString.render
  | none => some line

/-- Declarative consumption test: key `k` of the new mapping is consumed when
some original line parses as a record with key `k` present in the mapping. -/
def consumedKey (localized_strings : Dict) (lines : List String) (k : String) :
    Bool :=
  lines.any fun line =>
    match LocalizedString.from_line (pyStrip line) with
    | some current_string =>
      current_string.key == k &&
        (dictGet localized_strings current_string.key).isSome
    | none => false

/-- Declarative list of never-consumed new-mapping entries, rendered. -/
def newStringsUnconsumed (localized_strings : Dict) (lines : List String) :
    List String :=
  localized_strings.filterMap fun p =>
    if consumedKey localized_strings lines p.2.key then none
    else some (LocalizedString.render p.2)

theorem updateFold_out (localized_strings : Dict) (lines : List String)
    (acc : List String × List String) :
    (lines.foldl (updateStep localized_strings) acc).1 =
      acc.1 ++ lines.filterMap (updateLineOut localized_strings) := by
  induction lines generalizing acc with
  | nil => simp
  | cons line rest ih =>
    rw [List.foldl_cons, ih, List.filterMap_cons]
    rw [updateStep, updateLineOut]
    cases h : LocalizedString.from_line (pyStrip line) with
    | some cur =>
      cases hd : dictGet localized_strings cur.key with
      | some ls => simp [hd]
      | none => simp [hd]
    | none => simp

theorem updateFold_keys (localized_strings : Dict) (lines : List String)
    (acc : List String × List String) (k : String) :
    k ∈ (lines.foldl (updateStep localized_strings) acc).2 ↔
      k ∈ acc.2 ∨ consumedKey localized_strings lines k = true := by
  induction lines generalizing acc with
  | nil => simp [consumedKey]
  | cons line rest ih =>
    rw [List.foldl_cons, ih]
    have hstep : k ∈ (updateStep localized_strings acc line).2 ↔
        k ∈ acc.2 ∨
          (match LocalizedString.from_line (pyStrip line) with
            | some cur => cur.key == k &&
                (dictGet localized_strings cur.key).isSome
            | none => false) = true := by
      rw [updateStep]
      cases h : LocalizedString.from_line (pyStrip line) with
      | some cur =>
        cases hd : dictGet localized_strings cur.key with
        | some ls =>
          simp only [hd, List.mem_insert_iff, Option.isSome_some, Bool.and_true,
            beq_iff_eq]
          constructor
          · rintro (rfl | hmem)
            · exact .inr rfl
            · exact .inl hmem
          · rintro (hmem | rfl)
            · exact .inr hmem
            · exact .inl rfl
        | none => simp [hd]
      | none => simp
    rw [hstep]
    have hcons : consumedKey localized_strings (line :: rest) k = true ↔
        (match LocalizedString.from_line (pyStrip line) with
          | some cur => cur.key == k &&
              (dictGet localized_strings cur.key).isSome
          | none => false) = true ∨
          consumedKey localized_strings rest k = true := by
      rw [consumedKey, List.any_cons, consumedKey]
      simp
    rw [hcons]
    tauto

theorem filterMap_congr_on {α β : Type} (l : List α) (f g : α → Option β)
    (h : ∀ a ∈ l, f a = g a) : l.filterMap f = l.filterMap g := by
  induction l with
  | nil => rfl
  | cons x t ih =>
    rw [List.filterMap_cons, List.filterMap_cons, h x (.head t),
      ih (fun a ha => h a (.tail x ha))]

/-- C4 (amended): the updater's output is, in original order, each record
line whose key exists in the new mapping replaced by the new record's
rendering, each record line whose key is absent dropped, and every other
line copied unchanged; after the pass, the never-consumed new-mapping
entries are appended under the literal `/* New strings */` header (preceded
by a blank line), as rendered lines sorted lexicographically by their full
rendered text — which is alphabetical key order except for keys containing
characters that sort before the double quote. -/
theorem update_encoded_file_with_strings_spec (lines : List String)
    (localized_strings : Dict) :
    update_encoded_file_with_strings lines localized_strings =
      lines.filterMap (updateLineOut localized_strings) ++
        (if (newStringsUnconsumed localized_strings lines).isEmpty then []
         else ["", "/* New strings */"] ++
           sortStrings (newStringsUnconsumed localized_strings lines)) ∧
    List.Perm (sortStrings (newStringsUnconsumed localized_strings lines))
      (newStringsUnconsumed localized_strings lines) ∧
    (sortStrings (newStringsUnconsumed localized_strings lines)).Pairwise
      (fun a b => pyLe a b = true) := by
  refine ⟨?_, sortStrings_perm _, sortStrings_pairwise _⟩
  simp only [update_encoded_file_with_strings]
  have hout := updateFold_out localized_strings lines ([], [])
  simp only [] at hout
  have hnew : (localized_strings.filterMap fun p =>
      if p.2.key ∈ (lines.foldl (updateStep localized_strings) ([], [])).2 then none
      else some (LocalizedString.render p.2)) =
      newStringsUnconsumed localized_strings lines := by
    rw [newStringsUnconsumed]
    apply filterMap_congr_on
    intro p _
    have hiff := updateFold_keys localized_strings lines ([], []) p.2.key
    simp only [List.not_mem_nil, false_or] at hiff
    by_cases hc : consumedKey localized_strings lines p.2.key = true
    · rw [if_pos (hiff.mpr hc), if_pos hc]
    · rw [if_neg (fun hmem => hc (hiff.mp hmem)), if_neg hc]
  rw [hnew, hout]
  by_cases hempty : (newStringsUnconsumed localized_strings lines).isEmpty
  · simp [hempty]
  · simp [hempty]

/-- C4 counterexample input: a mapping with keys "AB" and "AB!" to append to
a file consisting of one blank line. -/
def updDict : Dict := [("AB", ⟨"AB", some "x", none⟩), ("AB!", ⟨"AB!", some "y", none⟩)]

/-- C4 counterexample: the appended new strings are sorted by their rendered
line text, not by key — key "AB" precedes "AB!" alphabetically, yet the line
for "AB!" is emitted first because '!' sorts before '"'. -/
theorem update_new_strings_not_key_alphabetical :
    update_encoded_file_with_strings [""] updDict =
      ["", "", "/* New strings */", "\"AB!\" = \"y\";", "\"AB\" = \"x\";"] ∧
    update_encoded_file_with_strings [""] updDict ≠
      ["", "", "/* New strings */", "\"AB\" = \"x\";", "\"AB!\" = \"y\";"] ∧
    pyLe "AB" "AB!" = true ∧ ("AB" : String) ≠ "AB!" := by decide

theorem prefixCandidates_split (cs : List Char) (p s : List Char)
    (h : (p, s) ∈ prefixCandidates cs) : p ++ s = cs ∧ p ≠ [] := by
  induction cs generalizing p s with
  | nil => simp [prefixCandidates] at h
  | cons c t ih =>
    rw [prefixCandidates] at h
    by_cases hc : dotOk c
    · rw [if_pos hc] at h
      rcases List.mem_append.mp h with h | h
      · obtain ⟨⟨p', s'⟩, hmem, heq⟩ := List.mem_map.mp h
        obtain ⟨h1, h2⟩ := ih p' s' hmem
        injection heq with e1 e2
        subst e1
        subst e2
        simp [h1]
      · simp only [List.mem_singleton] at h
        injection h with e1 e2
        subst e1
        subst e2
        simp
    · rw [if_neg hc] at h
      simp at h

theorem append_extend (p s K t : List Char) (h : p ++ s = K ++ t)
    (hlen : K.length < p.length) : ∃ q, q ≠ [] ∧ p = K ++ q ∧ q ++ s = t := by
  rcases List.append_eq_append_iff.mp h with ⟨a', ha, _⟩ | ⟨c', hb, hd⟩
  · subst ha
    simp only [List.length_append] at hlen
    omega
  · refine ⟨c', ?_, hb, hd.symm⟩
    rintro rfl
    subst hb
    simp at hlen

theorem mem_of_getLast : ∀ (cs : List Char) (c : Char), cs.getLast? = some c → c ∈ cs
  | [], c, h => by simp at h
  | [a], c, h => by
    simp only [List.getLast?_singleton, Option.some_inj] at h
    simp [h]
  | a :: b :: t, c, h => by
    rw [List.getLast?_cons_cons] at h
    exact .tail a (mem_of_getLast (b :: t) c h)

theorem stripTrailingNewline_eq (cs : List Char) (h : ∀ c ∈ cs, c ≠ '\n') :
    stripTrailingNewline cs = cs := by
  rw [stripTrailingNewline]
  by_cases hl : cs.getLast? = some '\n'
  · exact absurd rfl (h '\n' (mem_of_getLast cs '\n' hl))
  · rw [if_neg hl]

theorem findSome?_prefixCandidates {β : Type}
    (f : List Char × List Char → Option β) (A B : List Char) (out : β)
    (hA : A ≠ []) (hAnl : ∀ c ∈ A, c ≠ '\n')
    (hhit : f (A, B) = some out)
    (hmiss : ∀ p s, p ++ s = A ++ B → A.length < p.length → f (p, s) = none) :
    (prefixCandidates (A ++ B)).findSome? f = some out := by
  induction A generalizing f with
  | nil => exact absurd rfl hA
  | cons a A' ih =>
    have hda : dotOk a = true := by
      simp [dotOk, hAnl a (List.mem_cons_self a A')]
    rw [List.cons_append, prefixCandidates, if_pos hda, List.findSome?_append,
      List.findSome?_map]
    cases hA' : A' with
    | nil =>
      subst hA'
      simp only [List.nil_append]
      have hmap :
          (prefixCandidates B).findSome? (f ∘ fun p => (a :: p.1, p.2)) = none := by
        rw [List.findSome?_eq_none_iff]
        rintro ⟨p', s'⟩ hmem
        obtain ⟨h1, h2⟩ := prefixCandidates_split B p' s' hmem
        refine hmiss (a :: p') s' (by simp [h1]) ?_
        simp only [List.length_cons, List.length_singleton]
        cases p' with
        | nil => exact absurd rfl h2
        | cons _ _ => simp
      rw [hmap]
      simp [List.findSome?_cons, hhit]
    | cons b A'' =>
      rw [← hA']
      have hres := ih (f ∘ fun p => (a :: p.1, p.2))
        (by rw [hA']; simp)
        (fun c hc => hAnl c (List.mem_cons_of_mem a hc))
        (by simpa using hhit)
        (by
          intro p s hps hlen
          refine hmiss (a :: p) s (by simp [hps]) ?_
          simpa using Nat.succ_lt_succ hlen)
      rw [hres]
      simp [Option.or]


theorem isPrefixOf_append (pat cs : List Char) (h : pat.isPrefixOf cs = true) :
    pat ++ cs.drop pat.length = cs := by
  induction pat generalizing cs with
  | nil => simp
  | cons p ps ih =>
    cases cs with
    | nil => simp [List.isPrefixOf] at h
    | cons c ct =>
      simp only [List.isPrefixOf, Bool.and_eq_true, beq_iff_eq] at h
      obtain ⟨rfl, h2⟩ := h
      simpa using ih ct h2

theorem dropPat_mem (pat cs r : List Char) (h : r ∈ dropPat pat cs) :
    pat ++ r = cs := by
  rw [dropPat] at h
  by_cases hp : pat.isPrefixOf cs
  · rw [if_pos hp] at h
    simp only [List.mem_singleton] at h
    subst h
    exact isPrefixOf_append pat cs hp
  · rw [if_neg hp] at h
    simp at h

theorem matchEqCandidates_mem (X r : List Char) (h : r ∈ matchEqCandidates X) :
    ∃ pat, (pat = [' ', '=', ' '] ∨ pat = [' ', '='] ∨ pat = ['=', ' '] ∨ pat = ['=']) ∧
      pat ++ r = X := by
  rw [matchEqCandidates] at h
  rcases List.mem_append.mp h with h | h
  · rcases List.mem_append.mp h with h | h
    · rcases List.mem_append.mp h with h | h
      · exact ⟨_, .inl rfl, dropPat_mem _ X r h⟩
      · exact ⟨_, .inr (.inl rfl), dropPat_mem _ X r h⟩
    · exact ⟨_, .inr (.inr (.inl rfl)), dropPat_mem _ X r h⟩
  · exact ⟨_, .inr (.inr (.inr rfl)), dropPat_mem _ X r h⟩

theorem valueCont_findSome_none (k : List Char) (X : List Char)
    (hX : ∀ c ∈ X, c ≠ '"') :
    (prefixCandidates X).findSome? (valueCont k) = none := by
  rw [List.findSome?_eq_none_iff]
  rintro ⟨p, s⟩ hmem
  obtain ⟨hsplit, _⟩ := prefixCandidates_split X p s hmem
  cases s with
  | nil => rfl
  | cons c1 s1 =>
    cases s1 with
    | nil => rfl
    | cons c2 s2 =>
      rw [valueCont, if_neg]
      rintro ⟨rfl, -⟩
      refine hX '"' ?_ rfl
      rw [← hsplit]
      exact List.mem_append_right p (List.mem_cons_self _ _)

theorem eqCont_findSome_none_mixed (k V w1 : List Char)
    (hVq : ∀ c ∈ V, c ≠ '"') (hw1 : ∀ c ∈ w1, c ≠ '"') :
    (matchEqCandidates (V ++ '"' :: w1)).findSome? (eqCont k) = none := by
  rw [List.findSome?_eq_none_iff]
  intro r hr
  obtain ⟨pat, hpat, hsplit⟩ := matchEqCandidates_mem _ r hr
  have hpatq : ∀ c ∈ pat, c ≠ '"' := by
    rcases hpat with rfl | rfl | rfl | rfl <;> decide
  rcases List.append_eq_append_iff.mp hsplit with ⟨m, hV', hr'⟩ | ⟨m, hpat', hw'⟩
  · subst hr'
    cases m with
    | nil =>
      rw [List.nil_append, eqCont, if_pos rfl]
      exact valueCont_findSome_none k w1 hw1
    | cons c m' =>
      rw [List.cons_append, eqCont, if_neg]
      refine hVq c ?_
      rw [hV']
      exact List.mem_append_right pat (List.mem_cons_self c m')
  · cases m with
    | nil =>
      have hr' : r = '"' :: w1 := by simpa using hw'.symm
      subst hr'
      rw [eqCont, if_pos rfl]
      exact valueCont_findSome_none k w1 hw1
    | cons c m' =>
      exfalso
      rw [List.cons_append] at hw'
      injection hw' with e1 _
      refine hpatq c ?_ e1.symm
      rw [hpat']
      exact List.mem_append_right V (List.mem_cons_self c m')

theorem valueCont_none_longer (k V T' : List Char)
    (hT' : ∀ c ∈ T', c ≠ '"') (p s : List Char)
    (hsplit : p ++ s = V ++ '"' :: T') (hlen : V.length < p.length) :
    valueCont k (p, s) = none := by
  obtain ⟨q, hq, _, hqs⟩ := append_extend p s V _ hsplit hlen
  cases q with
  | nil => exact absurd rfl hq
  | cons c0 q1 =>
    rw [List.cons_append] at hqs
    injection hqs with _ hqs1
    cases s with
    | nil => rfl
    | cons c1 s1 =>
      cases s1 with
      | nil => rfl
      | cons c2 s2 =>
        rw [valueCont, if_neg]
        rintro ⟨rfl, -⟩
        refine hT' '"' ?_ rfl
        rw [← hqs1]
        exact List.mem_append_right q1 (List.mem_cons_self _ _)

theorem matchEqCandidates_semi (T : List Char) : matchEqCandidates (';' :: T) = [] := rfl

theorem keyCont_none_longer (K V T : List Char)
    (hVq : ∀ c ∈ V, c ≠ '"') (hTq : ∀ c ∈ T, c ≠ '"')
    (p s : List Char)
    (hsplit : p ++ s = K ++ '"' :: ' ' :: '=' :: ' ' :: '"' :: (V ++ '"' :: ';' :: T))
    (hlen : K.length < p.length) :
    keyCont (p, s) = none := by
  have hw1q : ∀ c ∈ (';' :: T), c ≠ '"' := by
    intro c hc
    rcases List.mem_cons.mp hc with rfl | hc
    · decide
    · exact hTq c hc
  obtain ⟨q, hq, _, hqs⟩ := append_extend p s K _ hsplit hlen
  cases q with
  | nil => exact absurd rfl hq
  | cons c0 q1 =>
    rw [List.cons_append] at hqs
    injection hqs with _ hqs1
    cases s with
    | nil => rfl
    | cons c1 s1 =>
      by_cases hc1 : c1 = '"'
      case neg => rw [keyCont, if_neg hc1]
      case pos =>
        subst hc1
        rw [keyCont, if_pos rfl]
        have hqs1' : q1 ++ '"' :: s1 =
            [' ', '=', ' '] ++ ('"' :: (V ++ '"' :: (';' :: T))) := by
          simpa using hqs1
        rcases List.append_eq_append_iff.mp hqs1' with ⟨m, hA, hbs⟩ | ⟨m, _, hds⟩
        · cases m with
          | nil =>
            simp only [List.nil_append] at hbs
            injection hbs with _ hs1
            subst hs1
            exact eqCont_findSome_none_mixed p V (';' :: T) hVq hw1q
          | cons c m' =>
            exfalso
            rw [List.cons_append] at hbs
            injection hbs with e1 _
            have hcA : c ∈ [' ', '=', ' '] := by
              rw [hA]
              exact List.mem_append_right q1 (List.mem_cons_self c m')
            rw [← e1] at hcA
            exact absurd hcA (by decide)
        · cases m with
          | nil =>
            simp only [List.nil_append] at hds
            injection hds with _ hs1
            rw [← hs1]
            exact eqCont_findSome_none_mixed p V (';' :: T) hVq hw1q
          | cons c m' =>
            rw [List.cons_append] at hds
            injection hds with _ hds1
            rcases List.append_eq_append_iff.mp hds1.symm with ⟨n, hV2, hbs2⟩ | ⟨n, _, hds2⟩
          
            · cases n with
              | nil =>
                simp only [List.nil_append] at hbs2
                injection hbs2 with _ hs1
                subst hs1
                rw [matchEqCandidates_semi]
                rfl
              | cons c2 n' =>
                exfalso
                rw [List.cons_append] at hbs2
                injection hbs2 with e2 _
                refine hVq c2 ?_ e2.symm
                rw [hV2]
                exact List.mem_append_right m' (List.mem_cons_self c2 n')
            · cases n with
              | nil =>
                simp only [List.nil_append] at hds2
                injection hds2 with _ hs1
                rw [← hs1]
                rw [matchEqCandidates_semi]
                rfl
              | cons c2 n' =>
                exfalso
                rw [List.cons_append] at hds2
                injection hds2 with e2 hds3
                refine hw1q '"' ?_ rfl
                rw [hds3]
                rw [e2]
                exact List.mem_append_right n' (List.mem_cons_self _ _)

theorem matchEqCandidates_eq_sp (X : List Char) :
    matchEqCandidates (' ' :: '=' :: ' ' :: X) = [X, ' ' :: X] := by
  simp [matchEqCandidates, dropPat, List.isPrefixOf]

/-- Character form of the rendered comment clause: empty when the comment is
absent, otherwise ` /* ` ++ comment ++ ` */`. -/
def tailOf : Option (List Char) → List Char
  | none => []
  | some C => ' ' :: '/' :: '*' :: ' ' :: (C ++ [' ', '*', '/'])

theorem tailOf_not_mem (C? : Option (List Char)) (e : Char)
    (he : e ≠ ' ' ∧ e ≠ '/' ∧ e ≠ '*')
    (hC : ∀ C, C? = some C → ∀ c ∈ C, c ≠ e) :
    ∀ c ∈ tailOf C?, c ≠ e := by
  cases C? with
  | none => intro c hc; simp [tailOf] at hc
  | some C =>
    intro c hc
    rw [tailOf] at hc
    rcases List.mem_cons.mp hc with rfl | hc
    · exact he.1.symm
    rcases List.mem_cons.mp hc with rfl | hc
    · exact he.2.1.symm
    rcases List.mem_cons.mp hc with rfl | hc
    · exact he.2.2.symm
    rcases List.mem_cons.mp hc with rfl | hc
    · exact he.1.symm
    rcases List.mem_append.mp hc with hc | hc
    · exact hC C rfl c hc
    rcases List.mem_cons.mp hc with rfl | hc
    · exact he.1.symm
    rcases List.mem_cons.mp hc with rfl | hc
    · exact he.2.2.symm
    rcases List.mem_cons.mp hc with rfl | hc
    · exact he.2.1.symm
    · simp at hc

theorem matchTail_tailOf (C? : Option (List Char))
    (hC : ∀ C, C? = some C → C ≠ [] ∧ (∀ c ∈ C, c ≠ '\n')) :
    matchTail (tailOf C?) = some C? := by
  cases C? with
  | none => rfl
  | some C =>
    obtain ⟨hne, hnl⟩ := hC C rfl
    rw [tailOf, matchTail]
    have hlen3 : (C ++ [' ', '*', '/']).length - 3 = C.length := by simp
    have hge : 4 ≤ (C ++ [' ', '*', '/']).length := by
      have : 1 ≤ C.length := List.length_pos.mpr hne
      simp only [List.length_append, List.length_cons, List.length_nil]
      omega
    have hdrop : (C ++ [' ', '*', '/']).drop ((C ++ [' ', '*', '/']).length - 3) =
        [' ', '*', '/'] := by
      rw [hlen3]
      exact List.drop_left C _
    have htake : (C ++ [' ', '*', '/']).take ((C ++ [' ', '*', '/']).length - 3) = C := by
      rw [hlen3]
      exact List.take_left C _
    have hall : ((C ++ [' ', '*', '/']).take ((C ++ [' ', '*', '/']).length - 3)).all
        dotOk = true := by
      rw [htake, List.all_eq_true]
      intro c hc
      simp [dotOk, hnl c hc]
    rw [if_pos ⟨hge, hdrop, hall⟩, htake]

theorem valueCont_hit (k V : List Char) (C? : Option (List Char))
    (hC : ∀ C, C? = some C → C ≠ [] ∧ (∀ c ∈ C, c ≠ '\n')) :
    valueCont k (V, '"' :: ';' :: tailOf C?) = some (k, V, C?) := by
  rw [valueCont, if_pos ⟨rfl, rfl⟩, matchTail_tailOf C? hC]
  rfl

theorem eqCont_hit (k V : List Char) (C? : Option (List Char))
    (hV : V ≠ []) (hVn : ∀ c ∈ V, c ≠ '\n')
    (hTq : ∀ c ∈ tailOf C?, c ≠ '"')
    (hC : ∀ C, C? = some C → C ≠ [] ∧ (∀ c ∈ C, c ≠ '\n')) :
    eqCont k ('"' :: (V ++ '"' :: ';' :: tailOf C?)) = some (k, V, C?) := by
  rw [eqCont, if_pos rfl]
  refine findSome?_prefixCandidates (valueCont k) V ('"' :: ';' :: tailOf C?)
    (k, V, C?) hV hVn (valueCont_hit k V C? hC) ?_
  intro p s hps hlen
  refine valueCont_none_longer k V (';' :: tailOf C?) ?_ p s hps hlen
  intro c hc
  rcases List.mem_cons.mp hc with rfl | hc
  · decide
  · exact hTq c hc

theorem fromLineChars_roundtrip (K V : List Char) (C? : Option (List Char))
    (hK : K ≠ []) (hV : V ≠ [])
    (hKn : ∀ c ∈ K, c ≠ '\n')
    (hVq : ∀ c ∈ V, c ≠ '"') (hVn : ∀ c ∈ V, c ≠ '\n')
    (hCq : ∀ C, C? = some C → ∀ c ∈ C, c ≠ '"')
    (hCn : ∀ C, C? = some C → ∀ c ∈ C, c ≠ '\n')
    (hCne : ∀ C, C? = some C → C ≠ []) :
    fromLineChars
        ('"' :: (K ++ '"' :: ' ' :: '=' :: ' ' :: '"' :: (V ++ '"' :: ';' :: tailOf C?))) =
      some (K, V, C?) := by
  have hTq : ∀ c ∈ tailOf C?, c ≠ '"' := tailOf_not_mem C? '"' (by decide) hCq
  have hTn : ∀ c ∈ tailOf C?, c ≠ '\n' := tailOf_not_mem C? '\n' (by decide) hCn
  have hC' : ∀ C, C? = some C → C ≠ [] ∧ (∀ c ∈ C, c ≠ '\n') :=
    fun C h => ⟨hCne C h, hCn C h⟩
  have hall : ∀ c ∈ ('"' :: (K ++ '"' :: ' ' :: '=' :: ' ' :: '"' ::
      (V ++ '"' :: ';' :: tailOf C?))), c ≠ '\n' := by
    intro c hc
    rcases List.mem_cons.mp hc with rfl | hc
    · decide
    rcases List.mem_append.mp hc with hc | hc
    · exact hKn c hc
    rcases List.mem_cons.mp hc with rfl | hc
    · decide
    rcases List.mem_cons.mp hc with rfl | hc
    · decide
    rcases List.mem_cons.mp hc with rfl | hc
    · decide
    rcases List.mem_cons.mp hc with rfl | hc
    · decide
    rcases List.mem_cons.mp hc with rfl | hc
    · decide
    rcases List.mem_append.mp hc with hc | hc
    · exact hVn c hc
    rcases List.mem_cons.mp hc with rfl | hc
    · decide
    rcases List.mem_cons.mp hc with rfl | hc
    · decide
    · exact hTn c hc
  rw [fromLineChars, stripTrailingNewline_eq _ hall]
  show (prefixCandidates (K ++ '"' :: ' ' :: '=' :: ' ' :: '"' ::
      (V ++ '"' :: ';' :: tailOf C?))).findSome? keyCont = some (K, V, C?)
  refine findSome?_prefixCandidates keyCont K _ (K, V, C?) hK hKn ?_ ?_
  · rw [keyCont, if_pos rfl, matchEqCandidates_eq_sp]
    have h1 := eqCont_hit K V C? hV hVn hTq hC'
    simp [List.findSome?_cons, h1]
  · intro p s hps hlen
    exact keyCont_none_longer K V (tailOf C?) hVq hTq p s hps hlen

/-- C2 (amended): for a record with non-empty key and value free of double
quotes and newlines, and a comment that is absent or non-empty and free of
double quotes and newlines, parsing the rendered line recovers exactly the
same record.  No sentinel normalization happens at this level: `from_line`
returns the inline comment verbatim. -/
theorem from_line_render_roundtrip (key value : String) (comment : Option String)
    (hkey : key ≠ "") (hval : value ≠ "")
    (hkq : ∀ c ∈ key.data, c ≠ '"') (hkn : ∀ c ∈ key.data, c ≠ '\n')
    (hvq : ∀ c ∈ value.data, c ≠ '"') (hvn : ∀ c ∈ value.data, c ≠ '\n')
    (hcom : ∀ c0, comment = some c0 →
      c0 ≠ "" ∧ (∀ c ∈ c0.data, c ≠ '"') ∧ (∀ c ∈ c0.data, c ≠ '\n')) :
    LocalizedString.from_line (LocalizedString.render ⟨key, some value, comment⟩) =
      some ⟨key, some value, comment⟩ := by
  have d1 : ("\"" : String).data = ['"'] := rfl
  have d2 : ("\" = \"" : String).data = ['"', ' ', '=', ' ', '"'] := rfl
  have d3 : ("\";" : String).data = ['"', ';'] := rfl
  have d4 : ("\"; /* " : String).data = ['"', ';', ' ', '/', '*', ' '] := rfl
  have d5 : (" */" : String).data = [' ', '*', '/'] := rfl
  have hdata : (LocalizedString.render ⟨key, some value, comment⟩).data =
      '"' :: (key.data ++ '"' :: ' ' :: '=' :: ' ' :: '"' ::
        (value.data ++ '"' :: ';' :: tailOf (comment.map String.data))) := by
    cases comment with
    | none =>
      simp [LocalizedString.render, truthy, tailOf, String.data_append,
        d1, d2, d3, List.append_assoc]
    | some c0 =>
      have hne := (hcom c0 rfl).1
      simp [LocalizedString.render, truthy, hne, tailOf, String.data_append,
        d1, d2, d4, d5, List.append_assoc]
  have hdne : ∀ (s : String), s ≠ "" → s.data ≠ [] := by
    intro s hs h
    apply hs
    have : s = ⟨s.data⟩ := rfl
    rw [this, h]
  rw [LocalizedString.from_line, hdata]
  rw [fromLineChars_roundtrip key.data value.data (comment.map String.data)
    (hdne key hkey) (hdne value hval) hkn hvq hvn
    (by
      intro C hCm
      cases comment with
      | none => simp at hCm
      | some c0 =>
        simp only [Option.map_some', Option.some_inj] at hCm
        subst hCm
        exact (hcom c0 rfl).2.1)
    (by
      intro C hCm
      cases comment with
      | none => simp at hCm
      | some c0 =>
        simp only [Option.map_some', Option.some_inj] at hCm
        subst hCm
        exact (hcom c0 rfl).2.2)
    (by
      intro C hCm
      cases comment with
      | none => simp at hCm
      | some c0 =>
        simp only [Option.map_some', Option.some_inj] at hCm
        subst hCm
        exact hdne c0 (hcom c0 rfl).1)]
  cases comment with
  | none => rfl
  | some c0 => rfl

/-- Witness for the amended C2 theorem at a concrete record. -/
theorem from_line_render_roundtrip_witness :
    LocalizedString.from_line
        (LocalizedString.render ⟨"KEY", some "Bonjour", some "from code"⟩) =
      some ⟨"KEY", some "Bonjour", some "from code"⟩ :=
  from_line_render_roundtrip "KEY" "Bonjour" (some "from code")
    (by decide) (by decide) (by decide) (by decide) (by decide) (by decide)
    (by
      intro c0 h
      injection h with h
      subst h
      exact ⟨by decide, by decide, by decide⟩)

/-- C2 counterexample: a record whose comment is exactly the sentinel text
round-trips to itself — the parse does not normalize the sentinel comment to
absent, contradicting the claim's normalization clause. -/
theorem from_line_render_sentinel_not_normalized :
    LocalizedString.from_line
        (LocalizedString.render ⟨"K", some "V", some sentinelComment⟩) =
      some ⟨"K", some "V", some sentinelComment⟩ ∧
    LocalizedString.from_line
        (LocalizedString.render ⟨"K", some "V", some sentinelComment⟩) ≠
      some ⟨"K", some "V", none⟩ := by decide
